import Mathlib

/-!
Shallow embedding of the frequency-combination resolver and the multi-sine
fitting helpers of the variability-analyser repository
(`varana/varana/freq_comb.py`, `varana/varana/fit.py`, and the historical
`src/fit.py`), together with proofs about the spec's claims.

Python floats are modelled as rationals (`ℚ`) in the resolver, where every
operation is exact arithmetic and comparisons, and as reals (`ℝ`) in the
fitting helpers, where the constant `np.pi` appears.  Python `int` is `ℤ`.
A raised exception is modelled as `none`/`Option`.
-/

namespace Varana

/-! ### freq_comb.py -/

/-- `np.count_nonzero(x)` on an integer coefficient vector. -/
def countNonzero (v : List ℤ) : ℕ :=
  (v.filter fun c => decide (c ≠ 0)).length

/-- `sum(x ** 2)` on an integer coefficient vector. -/
def sumSq (v : List ℤ) : ℤ :=
  (v.map fun c => c ^ 2).sum

/-- `sum(x < 0)`: the number of negative coefficients. -/
def countNeg (v : List ℤ) : ℕ :=
  (v.filter fun c => decide (c < 0)).length

/-- `np.dot(base, coeff)` for a float base and an integer coefficient vector.
All call sites pass vectors of equal length. -/
def dot (base : List ℚ) (v : List ℤ) : ℚ :=
  ((base.zip v).map fun p => p.1 * (p.2 : ℚ)).sum

/-- Python `range(minimum, maximum + 1)` as a list of integers. -/
def intRange (minimum maximum : ℤ) : List ℤ :=
  (List.range (maximum + 1 - minimum).toNat).map fun (i : ℕ) => minimum + (i : ℤ)

/-- `itertools.product(range(minimum, maximum + 1), repeat = size)`, in
itertools order: the leftmost coordinate varies slowest. -/
def cartesianPower (minimum maximum : ℤ) : ℕ → List (List ℤ)
  | 0 => [[]]
  | n + 1 =>
    (intRange minimum maximum).flatMap fun c =>
      (cartesianPower minimum maximum n).map fun v => c :: v

/-- Row `j` of `c * np.eye(size, dtype=int)`: the value `c` in position `j`,
zero elsewhere. -/
def eyeRow (size : ℕ) (c : ℤ) (j : ℕ) : List ℤ :=
  (List.range size).map fun k => if k = j then c else 0

/-- The harmonic prefix of `coefficients_generator`: for each
`i in range(maximum + 1, max_harmonic + 1)` it yields the rows of
`i * np.eye(size, dtype=int)` in row order. -/
def harmonicRows (size : ℕ) (maximum max_harmonic : ℤ) : List (List ℤ)  :=
  (intRange (maximum + 1) max_harmonic).flatMap fun h =>
    (List.range size).map fun j => eyeRow size h j

/-- `coefficients_generator(size, minimum, maximum, max_harmonic)`.
The generator raises `ImproperBounds` when `minimum >= maximum` (modelled as
`none`); otherwise it yields the harmonic rows (only when
`maximum < max_harmonic`) followed by the Cartesian product of
`range(minimum, maximum + 1)` repeated `size` times. -/
def coefficients_generator (size : ℕ) (minimum maximum max_harmonic : ℤ) :
    Option (List (List ℤ)) :=
  if minimum ≥ maximum then none
  else some
    ((if maximum < max_harmonic then harmonicRows size maximum max_harmonic else []) ++
      cartesianPower minimum maximum size)

/-- `get_most_likely_combination(coefficients_set)`: keep the vectors with the
fewest non-zero entries, then those with the smallest sum of squares, then
take the first vector (in the stable sort order) with the fewest negative
entries.  `sorted(l, key=k)[0]` is modelled as the head of a stable merge
sort by the key; the source indexes `[0]`, so it is only called on non-empty
input (`headI` returns `[]` on empty input). -/
def get_most_likely_combination (coefficients_set : List (List ℤ)) : List ℤ :=
  let coeffs₁ := coefficients_set.filter fun x =>
    decide (countNonzero x =
      countNonzero ((coefficients_set.mergeSort fun a b =>
        decide (countNonzero a ≤ countNonzero b)).headI))
  let coeffs₂ := coeffs₁.filter fun x =>
    decide (sumSq x =
      sumSq ((coeffs₁.mergeSort fun a b => decide (sumSq a ≤ sumSq b)).headI))
  (coeffs₂.mergeSort fun a b => decide (countNeg a ≤ countNeg b)).headI

/-- Result of `linear_combination`: either an integer coefficient array
(dtype `int`), or the sentinel `np.zeros(len(base), dtype=bool)` — an
all-`False` boolean array of the basis length.  The two have distinct numpy
dtypes, which the embedding records as distinct constructors. -/
inductive LinCombResult where
  | found (coeffs : List ℤ)
  | notFound (size : ℕ)
deriving DecidableEq

/-- `np.any` on a `linear_combination` result: any non-zero entry of an
integer array, any `True` of the boolean sentinel (there is none). -/
def anyResult : LinCombResult → Bool
  | .found v => v.any fun c => decide (c ≠ 0)
  | .notFound _ => false

/-- `linear_combination(base, frequency, minimum, maximum, max_harmonic,
epsilon)`: collect every generated coefficient vector whose dot product with
`base` is within `epsilon` of `frequency`; return the most likely one, or the
boolean sentinel when there is none.  `none` models the `ImproperBounds`
exception propagating from the generator. -/
def linear_combination (base : List ℚ) (frequency : ℚ)
    (minimum maximum max_harmonic : ℤ) (epsilon : ℚ) : Option LinCombResult :=
  (coefficients_generator base.length minimum maximum max_harmonic).map
    fun coefficients =>
      let combination_list :=
        coefficients.filter fun coeff => decide (|frequency - dot base coeff| < epsilon)
      if combination_list.length ≠ 0 then
        .found (get_most_likely_combination combination_list)
      else
        .notFound base.length

/-! ### Helper lemmas about sorting-based selection -/

theorem headI_mem {α : Type} [Inhabited α] {l : List α} (h : l ≠ []) :
    l.headI ∈ l := by
  cases l with
  | nil => exact absurd rfl h
  | cons a t => simp

theorem mergeSort_headI_mem {α : Type} [Inhabited α] (le : α → α → Bool)
    {l : List α} (h : l ≠ []) : (l.mergeSort le).headI ∈ l := by
  have hne : l.mergeSort le ≠ [] := by
    intro hnil
    apply h
    have := congrArg List.length hnil
    simpa using this
  exact List.mem_mergeSort.mp (headI_mem hne)

theorem mergeSort_headI_key_min {α γ : Type} [Inhabited α] [LinearOrder γ]
    (k : α → γ) {l : List α} {x : α} (hx : x ∈ l) :
    k ((l.mergeSort fun a b => decide (k a ≤ k b)).headI) ≤ k x := by
  have hs := @List.sorted_mergeSort α (fun a b => decide (k a ≤ k b))
    (fun a b c hab hbc => by
      simp only [decide_eq_true_eq] at *
      exact le_trans hab hbc)
    (fun a b => by
      simp only [Bool.or_eq_true, decide_eq_true_eq]
      exact le_total (k a) (k b)) l
  have hmem : x ∈ l.mergeSort fun a b => decide (k a ≤ k b) :=
    List.mem_mergeSort.mpr hx
  cases hsort : l.mergeSort fun a b => decide (k a ≤ k b) with
  | nil =>
    rw [hsort] at hmem
    cases hmem
  | cons h t =>
    rw [hsort] at hmem hs
    simp only [List.headI_cons]
    rcases List.mem_cons.mp hmem with rfl | hmemt
    · exact le_refl _
    · have := (List.pairwise_cons.mp hs).1 x hmemt
      simpa using this

/-- `get_most_likely_combination` returns a member of a non-empty input set. -/
theorem get_most_likely_combination_mem {s : List (List ℤ)} (h : s ≠ []) :
    get_most_likely_combination s ∈ s := by
  unfold get_most_likely_combination
  set h₁ := (s.mergeSort fun a b =>
    decide (countNonzero a ≤ countNonzero b)).headI with hh₁
  set c₁ := s.filter fun x => decide (countNonzero x = countNonzero h₁) with hc₁
  have hh₁mem : h₁ ∈ s := mergeSort_headI_mem _ h
  have hh₁c₁ : h₁ ∈ c₁ := List.mem_filter.mpr ⟨hh₁mem, by simp⟩
  have hc₁ne : c₁ ≠ [] := List.ne_nil_of_mem hh₁c₁
  set h₂ := (c₁.mergeSort fun a b => decide (sumSq a ≤ sumSq b)).headI with hh₂
  set c₂ := c₁.filter fun x => decide (sumSq x = sumSq h₂) with hc₂
  have hh₂mem : h₂ ∈ c₁ := mergeSort_headI_mem _ hc₁ne
  have hh₂c₂ : h₂ ∈ c₂ := List.mem_filter.mpr ⟨hh₂mem, by simp⟩
  have hc₂ne : c₂ ≠ [] := List.ne_nil_of_mem hh₂c₂
  have hres : (c₂.mergeSort fun a b => decide (countNeg a ≤ countNeg b)).headI ∈ c₂ :=
    mergeSort_headI_mem _ hc₂ne
  have h1 := (List.mem_filter.mp hres).1
  exact (List.mem_filter.mp h1).1

/-- When every member of a non-empty set equals `c`,
`get_most_likely_combination` returns `c`. -/
theorem get_most_likely_combination_const {s : List (List ℤ)} {c : List ℤ}
    (h : s ≠ []) (hall : ∀ x ∈ s, x = c) :
    get_most_likely_combination s = c :=
  hall _ (get_most_likely_combination_mem h)

/-- `countNonzero` vanishes exactly on all-zero vectors. -/
theorem countNonzero_eq_zero_iff {v : List ℤ} :
    countNonzero v = 0 ↔ ∀ c ∈ v, c = 0 := by
  simp only [countNonzero, List.length_eq_zero, List.filter_eq_nil_iff,
    decide_eq_true_eq]
  constructor
  · intro h c hc
    by_contra hne
    exact h c hc hne
  · intro h c hc hne
    exact hne (h c hc)

theorem countNonzero_replicate_zero (n : ℕ) :
    countNonzero (List.replicate n 0) = 0 :=
  countNonzero_eq_zero_iff.mpr fun _ hc => (List.mem_replicate.mp hc).2

/-- When the all-zero vector of length `n` belongs to the candidate set and
all candidates have length `n`, `get_most_likely_combination` selects the
all-zero vector: it is the unique candidate with the fewest (zero) non-zero
entries, so the first filter keeps nothing else. -/
theorem get_most_likely_combination_zero {s : List (List ℤ)} {n : ℕ}
    (hz : List.replicate n 0 ∈ s) (hlen : ∀ x ∈ s, x.length = n) :
    get_most_likely_combination s = List.replicate n 0 := by
  unfold get_most_likely_combination
  set h₁ := (s.mergeSort fun a b =>
    decide (countNonzero a ≤ countNonzero b)).headI with hh₁
  have hmin : countNonzero h₁ ≤ countNonzero (List.replicate n 0) :=
    mergeSort_headI_key_min countNonzero hz
  have hzero : countNonzero h₁ = 0 := by
    rw [countNonzero_replicate_zero] at hmin
    omega
  set c₁ := s.filter fun x => decide (countNonzero x = countNonzero h₁) with hc₁
  have hzc₁ : List.replicate n 0 ∈ c₁ :=
    List.mem_filter.mpr ⟨hz, by simp [hzero, countNonzero_replicate_zero]⟩
  have hallc₁ : ∀ x ∈ c₁, x = List.replicate n 0 := by
    intro x hx
    obtain ⟨hxs, hxp⟩ := List.mem_filter.mp hx
    rw [decide_eq_true_eq, hzero] at hxp
    rw [List.eq_replicate_iff]
    exact ⟨hlen x hxs, countNonzero_eq_zero_iff.mp hxp⟩
  have hc₁ne : c₁ ≠ [] := List.ne_nil_of_mem hzc₁
  set h₂ := (c₁.mergeSort fun a b => decide (sumSq a ≤ sumSq b)).headI with hh₂
  set c₂ := c₁.filter fun x => decide (sumSq x = sumSq h₂) with hc₂
  have hh₂mem : h₂ ∈ c₁ := mergeSort_headI_mem _ hc₁ne
  have hh₂c₂ : h₂ ∈ c₂ := List.mem_filter.mpr ⟨hh₂mem, by simp⟩
  have hc₂ne : c₂ ≠ [] := List.ne_nil_of_mem hh₂c₂
  have hres : (c₂.mergeSort fun a b => decide (countNeg a ≤ countNeg b)).headI ∈ c₂ :=
    mergeSort_headI_mem _ hc₂ne
  exact hallc₁ _ (List.mem_filter.mp hres).1

/-! ### Theorems for the generator claims -/

/-- C6: `coefficients_generator` fails with `ImproperBounds` if and only if
the minimum coefficient bound is not strictly below the maximum bound; in
particular it fails for `size=3, min=1, max=-1, max_harmonic=4`, and whenever
`minimum < maximum` no error is raised. -/
theorem coefficients_generator_improper_bounds_iff :
    (∀ (size : ℕ) (minimum maximum max_harmonic : ℤ),
      coefficients_generator size minimum maximum max_harmonic = none ↔
        ¬ minimum < maximum) ∧
    coefficients_generator 3 1 (-1) 4 = none := by
  refine ⟨fun s mn mx mh => ?_, by decide⟩
  unfold coefficients_generator
  split <;> simp_all

/-- C5 counterexample: for `size=2, min=-2, max=2, max_harmonic=5` the
harmonic-scaled unit vectors are six, not four: the first 4 yielded vectors
are `[3,0],[0,3],[4,0],[0,4]`, and the harmonic vector `5·e₀ = [5,0]` is not
among them. -/
theorem coefficients_generator_first_four :
    ((coefficients_generator 2 (-2) 2 5).getD []).take 4 =
      [[3, 0], [0, 3], [4, 0], [0, 4]] ∧
    [5, 0] ∈ harmonicRows 2 2 5 ∧
    [5, 0] ∉ ((coefficients_generator 2 (-2) 2 5).getD []).take 4 := by
  decide

/-- C5 amended: for `size=2, min=-2, max=2, max_harmonic=5` the generator
yields, before the bounded Cartesian product begins, the six harmonic-scaled
unit vectors `h·e_i` for `h = 3, 4, 5` on each of the two axes, in the
documented order `[3,0],[0,3],[4,0],[0,4],[5,0],[0,5]`; these are the first
six vectors yielded. -/
theorem coefficients_generator_harmonic_prefix :
    coefficients_generator 2 (-2) 2 5 =
      some ([[3, 0], [0, 3], [4, 0], [0, 4], [5, 0], [0, 5]] ++
        cartesianPower (-2) 2 2) ∧
    ((coefficients_generator 2 (-2) 2 5).getD []).take 6 =
      [[3, 0], [0, 3], [4, 0], [0, 4], [5, 0], [0, 5]] := by
  decide

/-! ### Helper lemmas about the generated search space -/

theorem mem_intRange {mn mx x : ℤ} : x ∈ intRange mn mx ↔ mn ≤ x ∧ x ≤ mx := by
  unfold intRange
  rw [List.mem_map]
  constructor
  · rintro ⟨i, hi, rfl⟩
    rw [List.mem_range] at hi
    omega
  · rintro ⟨h1, h2⟩
    exact ⟨(x - mn).toNat, List.mem_range.mpr (by omega), by omega⟩

theorem replicate_zero_mem_cartesianPower {mn mx : ℤ}
    (h1 : mn ≤ 0) (h2 : 0 ≤ mx) (n : ℕ) :
    List.replicate n 0 ∈ cartesianPower mn mx n := by
  induction n with
  | zero => simp [cartesianPower]
  | succ m ih =>
    simp only [cartesianPower, List.mem_flatMap, List.replicate_succ]
    exact ⟨0, mem_intRange.mpr ⟨h1, h2⟩, List.mem_map.mpr ⟨_, ih, rfl⟩⟩

theorem length_of_mem_cartesianPower {mn mx : ℤ} :
    ∀ {n : ℕ} {v : List ℤ}, v ∈ cartesianPower mn mx n → v.length = n := by
  intro n
  induction n with
  | zero =>
    intro v hv
    simp only [cartesianPower, List.mem_singleton] at hv
    simp [hv]
  | succ m ih =>
    intro v hv
    simp only [cartesianPower, List.mem_flatMap, List.mem_map] at hv
    obtain ⟨c, _, w, hw, rfl⟩ := hv
    simp [ih hw]

theorem length_of_mem_harmonicRows {size : ℕ} {mx mh : ℤ} {v : List ℤ}
    (hv : v ∈ harmonicRows size mx mh) : v.length = size := by
  simp only [harmonicRows, List.mem_flatMap, List.mem_map] at hv
  obtain ⟨h, _, j, _, rfl⟩ := hv
  simp [eyeRow]

/-- Every vector yielded by `coefficients_generator` has length `size`. -/
theorem length_of_mem_generator {size : ℕ} {mn mx mh : ℤ} {gen : List (List ℤ)}
    (hgen : coefficients_generator size mn mx mh = some gen) :
    ∀ v ∈ gen, v.length = size := by
  unfold coefficients_generator at hgen
  split at hgen
  · cases hgen
  · intro v hv
    rw [Option.some_inj] at hgen
    subst hgen
    rcases List.mem_append.mp hv with hl | hr
    · split at hl
      · exact length_of_mem_harmonicRows hl
      · cases hl
    · exact length_of_mem_cartesianPower hr

theorem dot_replicate_zero (base : List ℚ) (n : ℕ) :
    dot base (List.replicate n 0) = 0 := by
  induction base generalizing n with
  | nil => simp [dot]
  | cons b bs ih =>
    cases n with
    | zero => simp [dot]
    | succ m =>
      simp only [dot, List.replicate_succ, List.zip_cons_cons, List.map_cons,
        List.sum_cons, Int.cast_zero, mul_zero, zero_add]
      exact ih m

/-- The branch structure of `linear_combination` once the generator
succeeds. -/
theorem linear_combination_eq (base : List ℚ) (f : ℚ)
    (minimum maximum max_harmonic : ℤ) (epsilon : ℚ) (gen : List (List ℤ))
    (hgen : coefficients_generator base.length minimum maximum max_harmonic =
      some gen) :
    linear_combination base f minimum maximum max_harmonic epsilon =
      some (
        if (gen.filter fun coeff =>
            decide (|f - dot base coeff| < epsilon)).length ≠ 0 then
          LinCombResult.found (get_most_likely_combination
            (gen.filter fun coeff => decide (|f - dot base coeff| < epsilon)))
        else
          LinCombResult.notFound base.length) := by
  unfold linear_combination
  rw [hgen]
  rfl

/-! ### Theorems for the `linear_combination` claims -/

/-- C1: whenever some coefficient vector `C` inside the search space has its
dot product with the basis within `epsilon` of the target frequency,
`linear_combination` returns a found vector `R` that also matches within
`epsilon`; and when `C` is the unique matching vector in the search space,
the returned vector is exactly `C`. -/
theorem linear_combination_finds (base : List ℚ) (f : ℚ)
    (minimum maximum max_harmonic : ℤ) (epsilon : ℚ) (gen : List (List ℤ))
    (hgen : coefficients_generator base.length minimum maximum max_harmonic =
      some gen)
    (C : List ℤ) (hC : C ∈ gen) (hmatch : |f - dot base C| < epsilon) :
    ∃ R, linear_combination base f minimum maximum max_harmonic epsilon =
        some (LinCombResult.found R) ∧
      |f - dot base R| < epsilon ∧
      ((∀ C₂ ∈ gen, |f - dot base C₂| < epsilon → C₂ = C) → R = C) := by
  rw [linear_combination_eq base f minimum maximum max_harmonic epsilon gen hgen]
  set clist := gen.filter fun coeff => decide (|f - dot base coeff| < epsilon)
    with hclist
  have hCin : C ∈ clist := List.mem_filter.mpr ⟨hC, by simpa using hmatch⟩
  have hne : clist ≠ [] := List.ne_nil_of_mem hCin
  have hlen : clist.length ≠ 0 := by
    simpa [List.length_eq_zero] using hne
  rw [if_pos hlen]
  refine ⟨get_most_likely_combination clist, rfl, ?_, ?_⟩
  · have hm := get_most_likely_combination_mem hne
    have h2 := (List.mem_filter.mp hm).2
    simpa using h2
  · intro huniq
    have hm := get_most_likely_combination_mem hne
    obtain ⟨h1, h2⟩ := List.mem_filter.mp hm
    exact huniq _ h1 (by simpa using h2)

/-- Witness for C1: with basis `[1/2]`, target `1`, bounds `min=-2, max=2,
max_harmonic=3` and `epsilon=1/10`, the unique matching vector `[2]` is
returned. -/
theorem linear_combination_finds_witness :
    linear_combination [(1 : ℚ)/2] 1 (-2) 2 3 (1/10) =
      some (LinCombResult.found [2]) ∧
    |(1 : ℚ) - dot [(1 : ℚ)/2] [2]| < 1/10 := by
  obtain ⟨R, h1, h2, h3⟩ :=
    linear_combination_finds [(1 : ℚ)/2] 1 (-2) 2 3 (1/10)
      [[3], [-2], [-1], [0], [1], [2]] (by decide)
      [2] (by decide) (by norm_num [dot])
  have hR : R = [2] := h3 (by
    intro C₂ hC₂
    fin_cases hC₂ <;> simp [dot, abs_lt] <;> norm_num)
  rw [hR] at h1 h2
  exact ⟨h1, h2⟩

/-- C2: when no generated coefficient vector matches the target within
`epsilon`, `linear_combination` returns the boolean-false sentinel of the
basis length, which is distinguishable from any genuine integer combination
returned as a match (in particular from the all-zero one). -/
theorem linear_combination_not_found (base : List ℚ) (f : ℚ)
    (minimum maximum max_harmonic : ℤ) (epsilon : ℚ) (gen : List (List ℤ))
    (hgen : coefficients_generator base.length minimum maximum max_harmonic =
      some gen)
    (hno : ∀ C ∈ gen, ¬ |f - dot base C| < epsilon) :
    linear_combination base f minimum maximum max_harmonic epsilon =
      some (LinCombResult.notFound base.length) ∧
    ∀ v : List ℤ,
      LinCombResult.notFound base.length ≠ LinCombResult.found v := by
  constructor
  · rw [linear_combination_eq base f minimum maximum max_harmonic epsilon gen
      hgen]
    have hfil : (gen.filter fun coeff =>
        decide (|f - dot base coeff| < epsilon)) = [] :=
      List.filter_eq_nil_iff.mpr fun a ha => by simpa using hno a ha
    rw [hfil]
    simp
  · intro v h
    cases h

/-- Witness for C2: with basis `[1]`, target `100`, bounds `min=-2, max=2,
max_harmonic=3` and `epsilon=1/2`, nothing matches and the sentinel of
length 1 is returned; it differs from the found all-zero vector. -/
theorem linear_combination_not_found_witness :
    linear_combination [(1 : ℚ)] 100 (-2) 2 3 (1/2) =
      some (LinCombResult.notFound 1) ∧
    LinCombResult.notFound 1 ≠ LinCombResult.found [0] := by
  have h := linear_combination_not_found [(1 : ℚ)] 100 (-2) 2 3 (1/2)
    [[3], [-2], [-1], [0], [1], [2]] (by decide) (by
      intro C hC
      fin_cases hC <;> simp [dot, abs_lt] <;> norm_num)
  exact ⟨h.1, h.2 [0]⟩

/-- C10: for a non-empty basis and a target frequency smaller than `epsilon`
in absolute value, with search bounds containing zero, `linear_combination`
returns the all-zero integer vector as a genuine best combination; `np.any`
on that result is `false`, exactly as it is on the not-found sentinel, so the
`split_frequencies` test treats the two identically and promotes the
frequency into the basis. -/
theorem linear_combination_zero_frequency (base : List ℚ) (f : ℚ)
    (minimum maximum max_harmonic : ℤ) (epsilon : ℚ)
    (_hb : base ≠ []) (hlt : minimum < maximum)
    (hmn : minimum ≤ 0) (hmx : 0 ≤ maximum) (hf : |f| < epsilon) :
    linear_combination base f minimum maximum max_harmonic epsilon =
      some (LinCombResult.found (List.replicate base.length 0)) ∧
    anyResult (LinCombResult.found (List.replicate base.length 0)) = false ∧
    anyResult (LinCombResult.notFound base.length) = false := by
  obtain ⟨gen, hgen⟩ : ∃ gen,
      coefficients_generator base.length minimum maximum max_harmonic =
        some gen := by
    unfold coefficients_generator
    rw [if_neg (by omega)]
    exact ⟨_, rfl⟩
  have hzgen : List.replicate base.length 0 ∈ gen := by
    unfold coefficients_generator at hgen
    rw [if_neg (by omega), Option.some_inj] at hgen
    subst hgen
    exact List.mem_append.mpr
      (Or.inr (replicate_zero_mem_cartesianPower hmn hmx base.length))
  have hzmatch : |f - dot base (List.replicate base.length 0)| < epsilon := by
    rw [dot_replicate_zero]
    simpa using hf
  rw [linear_combination_eq base f minimum maximum max_harmonic epsilon gen
    hgen]
  set clist := gen.filter fun coeff => decide (|f - dot base coeff| < epsilon)
    with hclist
  have hzin : List.replicate base.length 0 ∈ clist :=
    List.mem_filter.mpr ⟨hzgen, by simpa using hzmatch⟩
  have hlenne : clist.length ≠ 0 := by
    simpa [List.length_eq_zero] using List.ne_nil_of_mem hzin
  rw [if_pos hlenne]
  have hsel : get_most_likely_combination clist = List.replicate base.length 0 := by
    apply get_most_likely_combination_zero hzin
    intro x hx
    exact length_of_mem_generator hgen x (List.mem_filter.mp hx).1
  refine ⟨by rw [hsel], ?_, rfl⟩
  simp only [anyResult, List.any_eq_false]
  intro x hx
  simp [(List.mem_replicate.mp hx).2]

/-- Witness for C10: basis `[1]`, target `0`, bounds `min=-2, max=2,
max_harmonic=3`, `epsilon=1/10`: the genuine all-zero combination `[0]` is
returned, and `np.any` is `false` both on it and on the sentinel. -/
theorem linear_combination_zero_frequency_witness :
    linear_combination [(1 : ℚ)] 0 (-2) 2 3 (1/10) =
      some (LinCombResult.found [0]) ∧
    anyResult (LinCombResult.found [0]) = false ∧
    anyResult (LinCombResult.notFound 1) = false := by
  have h := linear_combination_zero_frequency [(1 : ℚ)] 0 (-2) 2 3 (1/10)
    (List.cons_ne_nil _ _) (by decide) (by decide) (by decide)
    (by rw [abs_zero]; norm_num)
  simpa using h

/-! ### fit.py: frequency splitting and the combination matrix -/

/-- The loop body of `split_frequencies`: walk the remaining (sorted)
frequencies, appending each one whose resolver result has no truthy element
(`if not np.any(linear_combination(...))`) to the growing basis.  `none`
models an `ImproperBounds` exception escaping from the resolver. -/
def splitLoop (minimum maximum max_harmonic : ℤ) (epsilon : ℚ) :
    List ℚ → List ℚ → Option (List ℚ)
  | basic, [] => some basic
  | basic, f :: rest => do
    let r ← linear_combination basic f minimum maximum max_harmonic epsilon
    splitLoop minimum maximum max_harmonic epsilon
      (if anyResult r then basic else basic ++ [f]) rest

/-- `split_frequencies(frequencies, minimum, maximum, max_harmonic, epsilon)`
from `varana/fit.py`: sort the frequencies, seed the basis with the first
one, scan the rest through the resolver, and return the basis together with
the sorted frequencies not contained in it.  Note there is no input
validation: an empty list flows straight through. -/
def split_frequencies (frequencies : List ℚ)
    (minimum maximum max_harmonic : ℤ) (epsilon : ℚ) :
    Option (List ℚ × List ℚ) := do
  let fs := frequencies.mergeSort fun a b => decide (a ≤ b)
  let basic ← splitLoop minimum maximum max_harmonic epsilon
    (fs.take 1) (fs.drop 1)
  some (basic, fs.filter fun f => decide (f ∉ basic))

/-- `np.eye(n, dtype=int)` as a list of rows. -/
def eye (n : ℕ) : List (List ℤ) :=
  (List.range n).map fun i => eyeRow n 1 i

/-- The row appended to the combination matrix for one dependent frequency:
the resolved coefficients, or — for the boolean sentinel, which `np.append`
coerces to integers — a row of zeros. -/
def combRow : LinCombResult → List ℤ
  | .found v => v
  | .notFound m => List.replicate m 0

/-- The loop of `frequencies_combination`: one resolver row per dependent
frequency, in order. -/
def combinationRows (base : List ℚ) (minimum maximum max_harmonic : ℤ)
    (epsilon : ℚ) : List ℚ → Option (List (List ℤ))
  | [] => some []
  | cf :: rest => do
    let r ← linear_combination base cf minimum maximum max_harmonic epsilon
    let rows ← combinationRows base minimum maximum max_harmonic epsilon rest
    some (combRow r :: rows)

/-- `frequencies_combination(frequencies, minimum, maximum, max_harmonic,
epsilon)` from `varana/fit.py`: split the frequencies, then stack an integer
identity block for the basis followed by one resolved coefficient row per
dependent frequency. -/
def frequencies_combination (frequencies : List ℚ)
    (minimum maximum max_harmonic : ℤ) (epsilon : ℚ) :
    Option (List ℚ × List (List ℤ)) := do
  let (base, combined) ← split_frequencies frequencies minimum maximum
    max_harmonic epsilon
  let rows ← combinationRows base minimum maximum max_harmonic epsilon combined
  some (base, eye base.length ++ rows)

theorem combinationRows_length {base : List ℚ} {mn mx mh : ℤ} {eps : ℚ} :
    ∀ {l : List ℚ} {rows : List (List ℤ)},
      combinationRows base mn mx mh eps l = some rows → rows.length = l.length := by
  intro l
  induction l with
  | nil =>
    intro rows h
    simp only [combinationRows, Option.some_inj] at h
    simp [← h]
  | cons cf rest ih =>
    intro rows h
    simp only [combinationRows, Option.bind_eq_bind, Option.bind_eq_some] at h
    obtain ⟨r, _, rows₂, hrows₂, hcons⟩ := h
    obtain rfl := Option.some_inj.mp hcons
    simp [ih hrows₂]

/-! ### Theorems for the fitting-engine claims -/

/-- C3 counterexample: there is no `MalformedInput` boundary check in the
code.  Invoking the splitting step of the fitting engine with an empty
frequency list raises no error at all: `split_frequencies` returns an empty
basis and empty dependents, and the empty input proceeds into the numeric
code. -/
theorem split_frequencies_empty_no_error :
    split_frequencies [] (-5) 5 10 (1/100000) = some ([], []) := by
  simp [split_frequencies, splitLoop]

/-- C3 amended: the fitting engine performs no boundary validation: for all
bounds and tolerances, an empty frequency list is not rejected —
`split_frequencies` returns `([], [])` without raising any error. -/
theorem split_frequencies_empty (minimum maximum max_harmonic : ℤ)
    (epsilon : ℚ) :
    split_frequencies [] minimum maximum max_harmonic epsilon =
      some ([], []) := by
  simp [split_frequencies, splitLoop]

/-- C9: the combination matrix built by `frequencies_combination` starts
with the `M × M` integer identity block for the `M` basic frequencies,
followed by exactly one resolved coefficient row per dependent frequency. -/
theorem frequencies_combination_identity_prefix (frequencies : List ℚ)
    (minimum maximum max_harmonic : ℤ) (epsilon : ℚ)
    (base combined : List ℚ) (matrix : List (List ℤ))
    (hsplit : split_frequencies frequencies minimum maximum max_harmonic
      epsilon = some (base, combined))
    (h : frequencies_combination frequencies minimum maximum max_harmonic
      epsilon = some (base, matrix)) :
    matrix.take base.length = eye base.length ∧
    matrix.length = base.length + combined.length ∧
    combinationRows base minimum maximum max_harmonic epsilon combined =
      some (matrix.drop base.length) := by
  unfold frequencies_combination at h
  rw [hsplit] at h
  simp only [Option.bind_eq_bind, Option.some_bind, Option.bind_eq_some,
    Option.some_inj] at h
  obtain ⟨rows, hrows, hmat⟩ := h
  have hm : eye base.length ++ rows = matrix := congrArg Prod.snd hmat
  have hlen : rows.length = combined.length := combinationRows_length hrows
  have heye : (eye base.length).length = base.length := by
    simp [eye]
  refine ⟨?_, ?_, ?_⟩
  · rw [← hm, List.take_left' heye]
  · rw [← hm]
    simp [heye, hlen]
  · rw [← hm, List.drop_left' heye]
    exact hrows

/-- Witness for C9: for the single frequency `1`, the basis is `[1]`, there
are no dependents, and the combination matrix is exactly the `1 × 1`
identity. -/
theorem frequencies_combination_identity_prefix_witness :
    ([[1]] : List (List ℤ)).take 1 = eye 1 ∧
    ([[1]] : List (List ℤ)).length = 1 + 0 ∧
    combinationRows [(1 : ℚ)] (-5) 5 10 (1/1000) [] =
      some (([[1]] : List (List ℤ)).drop 1) := by
  have hsplit : split_frequencies [(1 : ℚ)] (-5) 5 10 (1/1000) =
      some ([1], []) := by
    simp [split_frequencies, splitLoop]
  have h : frequencies_combination [(1 : ℚ)] (-5) 5 10 (1/1000) =
      some ([1], [[1]]) := by
    unfold frequencies_combination
    rw [hsplit]
    simp [combinationRows, eye, eyeRow, List.range_succ]
  have hfin := frequencies_combination_identity_prefix [(1 : ℚ)] (-5) 5 10
    (1/1000) [1] [] [[1]] hsplit h
  simpa using hfin

/-! ### fit.py: phase normalization, sign normalization, residuals -/

/-- `normalize_phase(phase_param)` from `varana/fit.py`:
`phase_param - 2 * np.pi * (phase_param // (2 * np.pi))`, where `//` is
floor division. -/
noncomputable def normalize_phase (phase_param : ℝ) : ℝ :=
  phase_param - 2 * Real.pi * ⌊phase_param / (2 * Real.pi)⌋

theorem normalize_phase_eq_fract_mul (x : ℝ) :
    normalize_phase x = 2 * Real.pi * Int.fract (x / (2 * Real.pi)) := by
  have hT : (0 : ℝ) < 2 * Real.pi := by positivity
  unfold normalize_phase Int.fract
  field_simp

theorem normalize_phase_nonneg (x : ℝ) : 0 ≤ normalize_phase x := by
  rw [normalize_phase_eq_fract_mul]
  have hT : (0 : ℝ) < 2 * Real.pi := by positivity
  exact mul_nonneg hT.le (Int.fract_nonneg _)

theorem normalize_phase_lt (x : ℝ) : normalize_phase x < 2 * Real.pi := by
  rw [normalize_phase_eq_fract_mul]
  have hT : (0 : ℝ) < 2 * Real.pi := by positivity
  calc 2 * Real.pi * Int.fract (x / (2 * Real.pi)) < 2 * Real.pi * 1 :=
        (mul_lt_mul_left hT).mpr (Int.fract_lt_one _)
    _ = 2 * Real.pi := mul_one _

theorem normalize_phase_of_mem_range {y : ℝ} (h0 : 0 ≤ y)
    (h1 : y < 2 * Real.pi) : normalize_phase y = y := by
  have hT : (0 : ℝ) < 2 * Real.pi := by positivity
  have hfl : ⌊y / (2 * Real.pi)⌋ = 0 := by
    rw [Int.floor_eq_zero_iff, Set.mem_Ico]
    exact ⟨div_nonneg h0 hT.le, (div_lt_one hT).mpr h1⟩
  unfold normalize_phase
  rw [hfl]
  simp

/-- C7: `normalize_phase(x)` equals `x - 2π·⌊x/(2π)⌋`, lies in `[0, 2π)`,
and is idempotent. -/
theorem normalize_phase_spec (x : ℝ) :
    normalize_phase x = x - 2 * Real.pi * ⌊x / (2 * Real.pi)⌋ ∧
    0 ≤ normalize_phase x ∧ normalize_phase x < 2 * Real.pi ∧
    normalize_phase (normalize_phase x) = normalize_phase x :=
  ⟨rfl, normalize_phase_nonneg x, normalize_phase_lt x,
    normalize_phase_of_mem_range (normalize_phase_nonneg x)
      (normalize_phase_lt x)⟩

/-- One `(amplitude, frequency, phase, y0)` block of
`_replace_negative_parameters` in the historical `src/fit.py`: a negative
amplitude is negated with `np.pi` added to the phase; then a negative phase
gets `2 * np.pi` added (once). -/
noncomputable def replaceNegativeBlock (p : ℝ × ℝ × ℝ × ℝ) : ℝ × ℝ × ℝ × ℝ :=
  let a := if p.1 < 0 then -p.1 else p.1
  let ph := if p.1 < 0 then Real.pi + p.2.2.1 else p.2.2.1
  let ph₂ := if ph < 0 then 2 * Real.pi + ph else ph
  (a, p.2.1, ph₂, p.2.2.2)

/-- `_replace_negative_parameters(parameters)` from the historical
`src/fit.py`, on the list of 4-value parameter blocks it iterates over. -/
noncomputable def replace_negative_parameters
    (parameters : List (ℝ × ℝ × ℝ × ℝ)) : List (ℝ × ℝ × ℝ × ℝ) :=
  parameters.map replaceNegativeBlock

/-- C4 counterexample: a block with amplitude `1` and phase `7` passes both
`if` statements unchanged, yet the output phase `7` is not in `[0, 2π)`:
the code never reduces phases at or above `2π`. -/
theorem replace_negative_parameters_phase_counterexample :
    replace_negative_parameters [((1 : ℝ), 1, 7, 0)] = [((1 : ℝ), 1, 7, 0)] ∧
    ¬ ((7 : ℝ) < 2 * Real.pi) := by
  constructor
  · unfold replace_negative_parameters replaceNegativeBlock
    norm_num
  · push_neg
    nlinarith [Real.pi_lt_d2]

/-- C4 amended: every block whose fitted amplitude is negative has its
amplitude negated and `π` added to its phase (then possibly `2π` added once),
and every output amplitude is non-negative; the output phases lie in
`[0, 2π)` provided every (possibly `π`-shifted) phase lies in `[-2π, 2π)` —
the single `2π` shift cannot renormalize phases outside that window. -/
theorem replace_negative_parameters_spec (params : List (ℝ × ℝ × ℝ × ℝ))
    (hrange : ∀ p ∈ params,
      -(2 * Real.pi) ≤ (if p.1 < 0 then Real.pi + p.2.2.1 else p.2.2.1) ∧
      (if p.1 < 0 then Real.pi + p.2.2.1 else p.2.2.1) < 2 * Real.pi) :
    (∀ p ∈ params, p.1 < 0 →
      (replaceNegativeBlock p).1 = -p.1 ∧
      ((replaceNegativeBlock p).2.2.1 = Real.pi + p.2.2.1 ∨
        (replaceNegativeBlock p).2.2.1 = 2 * Real.pi + (Real.pi + p.2.2.1))) ∧
    ∀ q ∈ replace_negative_parameters params,
      0 ≤ q.1 ∧ 0 ≤ q.2.2.1 ∧ q.2.2.1 < 2 * Real.pi := by
  constructor
  · intro p _ hneg
    simp only [replaceNegativeBlock]
    rw [if_pos hneg, if_pos hneg]
    refine ⟨rfl, ?_⟩
    by_cases hph : Real.pi + p.2.2.1 < 0
    · rw [if_pos hph]
      exact Or.inr rfl
    · rw [if_neg hph]
      exact Or.inl rfl
  · intro q hq
    rw [replace_negative_parameters, List.mem_map] at hq
    obtain ⟨p, hp, rfl⟩ := hq
    obtain ⟨hlo, hhi⟩ := hrange p hp
    simp only [replaceNegativeBlock]
    split_ifs at hlo hhi ⊢ <;>
      refine ⟨by linarith, by linarith, by linarith⟩

/-- Witness for C4 amended: the single block `(-1, 5, -1, 0)` satisfies the
phase-window hypothesis and is normalized to `(1, 5, π - 1, 0)`, whose
amplitude and phase satisfy the invariants. -/
theorem replace_negative_parameters_spec_witness :
    0 ≤ ((1 : ℝ), (5 : ℝ), Real.pi - 1, (0 : ℝ)).1 ∧
    0 ≤ ((1 : ℝ), (5 : ℝ), Real.pi - 1, (0 : ℝ)).2.2.1 ∧
    ((1 : ℝ), (5 : ℝ), Real.pi - 1, (0 : ℝ)).2.2.1 < 2 * Real.pi := by
  have hpi := Real.pi_gt_three
  have h := (replace_negative_parameters_spec [((-1 : ℝ), 5, -1, 0)]
    (by
      intro p hp
      rw [List.mem_singleton] at hp
      subst hp
      norm_num
      constructor <;> nlinarith)).2
  apply h
  have hmem : replace_negative_parameters [((-1 : ℝ), 5, -1, 0)] =
      [((1 : ℝ), (5 : ℝ), Real.pi - 1, (0 : ℝ))] := by
    simp only [replace_negative_parameters, List.map_cons, List.map_nil,
      replaceNegativeBlock]
    norm_num
    rw [if_neg (by nlinarith : ¬ Real.pi < 1)]
    ring
  rw [hmem]
  exact List.mem_singleton.mpr rfl

/-- `substract_model(data, model)` from `varana/fit.py`.  The source runs
`data[:, 1] -= model(data[:, 0])` — an in-place update of the caller's
array through a numpy slice — and then returns `data`, the very same array.
The embedding passes the array state explicitly and returns the pair
`(returned array, caller's array after the call)`; both components are the
same updated object. -/
noncomputable def substract_model (data : List (ℝ × ℝ × ℝ))
    (model : ℝ → ℝ) : List (ℝ × ℝ × ℝ) × List (ℝ × ℝ × ℝ) :=
  let updated := data.map fun r => (r.1, r.2.1 - model r.1, r.2.2)
  (updated, updated)

/-- C8 counterexample: `substract_model` is not pure: after a call with a
model that is nonzero on the data, the caller-supplied light curve array no
longer holds its original brightness column. -/
theorem substract_model_mutates_caller_array :
    (substract_model [((0 : ℝ), 1, 1)] fun _ => 1).2 ≠ [((0 : ℝ), 1, 1)] := by
  intro h
  simp only [substract_model, List.map_cons, List.map_nil,
    List.cons.injEq, Prod.mk.injEq] at h
  norm_num at h

/-- C8 amended: the array returned by `substract_model` carries the original
brightness minus the model evaluated at the time column, with the time and
error columns unchanged — but the function is not pure: the subtraction is
performed in place on the caller's array, which afterwards equals the
returned residual array rather than the original input. -/
theorem substract_model_spec (data : List (ℝ × ℝ × ℝ)) (model : ℝ → ℝ) :
    (∀ i : ℕ, (substract_model data model).1[i]? =
      data[i]?.map fun r => (r.1, r.2.1 - model r.1, r.2.2)) ∧
    ((substract_model data model).1.map fun r => r.1) =
      (data.map fun r => r.1) ∧
    ((substract_model data model).1.map fun r => r.2.2) =
      (data.map fun r => r.2.2) ∧
    (substract_model data model).2 = (substract_model data model).1 := by
  refine ⟨fun i => ?_, ?_, ?_, rfl⟩
  · simp [substract_model, List.getElem?_map]
  · simp only [substract_model, List.map_map]
    rfl
  · simp only [substract_model, List.map_map]
    rfl

end Varana
